import Mathlib

/-!
# Verification of the `lru_cache_exercise` LRU cache

Shallow embedding of `src/lru_cache_exercise/src/lib.rs`: a fixed-capacity
key-value cache with least-recently-used eviction, built from a
`HashMap<K, Link<K, V>>` index and an intrusive doubly-linked recency list
whose nodes are shared `Rc<RefCell<Node<K, V>>>` cells.

The embedding makes the shared heap explicit: every `Rc::new` allocation gets
the next free identifier (an index into the list `mem`), a `Link` is an
`Option` of such an identifier, and a `borrow_mut` field write becomes a
functional update of `mem` at that identifier.  The `HashMap` is embedded as an
association list with first-match lookup, whose insert replaces any existing
binding, exactly the observable behaviour the source relies on.  The states
in which a dereference would fail (a dangling identifier, or an index entry
holding an empty link, where the source's `unwrap` would panic) are unreachable
from `new`; on them, the embedded operations return the state unchanged.
-/

set_option autoImplicit false
set_option linter.unusedSectionVars false

namespace LruModel

/-- `type Link<K, V> = Option<Rc<RefCell<Node<K, V>>>>`: a link is an optional
reference to a node; the embedding identifies each allocated node by the index
at which it was allocated in the heap `mem`. -/
abbrev Link : Type := Option Nat

/-- `struct Node<K, V> { key: K, data: V, next: Link<K, V>, prev: Link<K, V> }`. -/
structure Node (K V : Type) where
  key : K
  data : V
  next : Link
  prev : Link
deriving DecidableEq, Repr

/-- `struct LruCache<K, V> { capacity: usize, map: HashMap<K, Link<K, V>>,
head: Link<K, V>, tail: Link<K, V> }`, together with the heap `mem` of all
nodes allocated so far (identifiers index into it). -/
structure LruCache (K V : Type) where
  capacity : Nat
  map : List (K × Link)
  head : Link
  tail : Link
  mem : List (Node K V)
deriving DecidableEq, Repr

variable {K V : Type} [DecidableEq K]

/-- `HashMap::get`: the binding of a key in the embedded map (first match). -/
def mapGet : List (K × Link) → K → Option Link
  | [], _ => none
  | (a, l) :: m, k => if a = k then some l else mapGet m k

/-- `HashMap::remove`: drop the binding of a key. -/
def mapRemove : List (K × Link) → K → List (K × Link)
  | [], _ => []
  | (a, l) :: m, k => if a = k then mapRemove m k else (a, l) :: mapRemove m k

/-- `HashMap::insert`: bind a key, replacing any existing binding. -/
def mapInsert (m : List (K × Link)) (k : K) (l : Link) : List (K × Link) :=
  (k, l) :: mapRemove m k

/-- `node.borrow_mut().next = l` on the node with identifier `i` (no effect on
a dangling identifier, which never occurs in reachable states). -/
def setNext (mem : List (Node K V)) (i : Nat) (l : Link) : List (Node K V) :=
  match mem[i]? with
  | some n => mem.set i { n with next := l }
  | none => mem

/-- `node.borrow_mut().prev = l` on the node with identifier `i`. -/
def setPrev (mem : List (Node K V)) (i : Nat) (l : Link) : List (Node K V) :=
  match mem[i]? with
  | some n => mem.set i { n with prev := l }
  | none => mem

/-- `node.borrow_mut().data = v` on the node with identifier `i`. -/
def setData (mem : List (Node K V)) (i : Nat) (v : V) : List (Node K V) :=
  match mem[i]? with
  | some n => mem.set i { n with data := v }
  | none => mem

namespace LruCache

/-- `LruCache::new(capacity)` (lib.rs lines 25–32): empty map, no head, no
tail; any `capacity` is accepted. -/
def new (K V : Type) (capacity : Nat) : LruCache K V :=
  { capacity := capacity, map := [], head := none, tail := none, mem := [] }

/-- `LruCache::remove_node(node)` (lib.rs lines 75–95): splice the node out of
the chain — the predecessor's `next` (or `head`) becomes the node's `next`,
the successor's `prev` (or `tail`) becomes the node's `prev`.  The node's own
link fields are left as they were. -/
def remove_node (c : LruCache K V) (node : Link) : LruCache K V :=
  match node with
  | none => c
  | some i =>
    match c.mem[i]? with
    | none => c
    | some n =>
      let prev := n.prev
      let next := n.next
      let c1 :=
        match prev with
        | some p => { c with mem := setNext c.mem p next }
        | none => { c with head := next }
      match next with
      | some q => { c1 with mem := setPrev c1.mem q prev }
      | none => { c1 with tail := prev }

/-- `LruCache::push_front(node)` (lib.rs lines 97–112): link the node in front
of the current head, make it the new head, and make it the tail as well when
the list was empty. -/
def push_front (c : LruCache K V) (node : Link) : LruCache K V :=
  match node with
  | none => c
  | some i =>
    let m1 := setNext c.mem i c.head
    let m2 := setPrev m1 i none
    let m3 :=
      match c.head with
      | some h => setPrev m2 h (some i)
      | none => m2
    let c1 := { c with mem := m3, head := some i }
    if c1.tail = none then { c1 with tail := some i } else c1

/-- `LruCache::get(key)` (lib.rs lines 34–44): on a hit, read the value, then
`remove_node` and `push_front` the node (move to front); on a miss return
`None` with no effect. -/
def get (c : LruCache K V) (key : K) : Option V × LruCache K V :=
  match mapGet c.map key with
  | some (some i) =>
    match c.mem[i]? with
    | some n =>
      let data := n.data
      let c1 := remove_node c (some i)
      let c2 := push_front c1 (some i)
      (some data, c2)
    | none => (none, c)
  | some none => (none, c)
  | none => (none, c)

/-- `LruCache::put(key, value)` (lib.rs lines 46–73): overwrite and move to
front when the key is resident; otherwise, when `map.len() >= capacity` and a
tail exists, evict the tail (remove its key from the map, unlink it), then
allocate a fresh node holding `(key, value)`, push it to the front and bind
the key to it in the map. -/
def put (c : LruCache K V) (key : K) (value : V) : LruCache K V :=
  match mapGet c.map key with
  | some (some i) =>
    let c1 := { c with mem := setData c.mem i value }
    let c2 := remove_node c1 (some i)
    push_front c2 (some i)
  | some none => c
  | none =>
    let c1 :=
      if c.capacity ≤ c.map.length then
        match c.tail with
        | some t =>
          match c.mem[t]? with
          | some tn =>
            let ce := { c with map := mapRemove c.map tn.key }
            remove_node ce (some t)
          | none => c
        | none => c
      else c
    let i := c1.mem.length
    let c2 := { c1 with mem := c1.mem ++ [⟨key, value, none, none⟩] }
    let c3 := push_front c2 (some i)
    { c3 with map := mapInsert c3.map key (some i) }

/-- The common tail of `put`'s non-resident branches (lib.rs lines 63–72):
allocate a fresh node holding `(k, v)` (its identifier is the next free heap
index), push it to the front, and bind `k` to it in the map.  `put` reduces
to this applied to the state left by the (possibly skipped) eviction. -/
def insertFresh (c : LruCache K V) (k : K) (v : V) : LruCache K V :=
  { push_front { c with mem := c.mem ++ [⟨k, v, none, none⟩] } (some c.mem.length) with
      map := mapInsert c.map k (some c.mem.length) }

end LruCache

/-- One public API call. -/
inductive Op (K V : Type) where
  | get (k : K)
  | put (k : K) (v : V)

/-- Apply one API call to a cache state (the value a `get` returns is
discarded, only the state is kept). -/
def step (c : LruCache K V) : Op K V → LruCache K V
  | .get k => (LruCache.get c k).2
  | .put k v => LruCache.put c k v

/-- Apply a sequence of API calls left to right. -/
def run (c : LruCache K V) (ops : List (Op K V)) : LruCache K V :=
  ops.foldl step c

/-! ## Representation predicate

`chainSeg mem prv ids kvs nxt` says that the identifiers `ids` form a
doubly-linked segment inside the heap `mem` holding the key-value pairs
`kvs` in order: the first node's `prev` is `prv`, consecutive nodes point at
each other in both directions, and the last node's `next` is `nxt`. -/

/-- The link entering a segment from the front: the first identifier if the
segment is nonempty, otherwise the given continuation link. -/
def linkOf : List Nat → Link → Link
  | [], nxt => nxt
  | j :: _, _ => some j

/-- The link leaving a segment at the back: the last identifier if the
segment is nonempty, otherwise the given predecessor link. -/
def backLink : List Nat → Link → Link
  | [], p => p
  | j :: is, _ => backLink is (some j)

/-- Doubly-linked segment predicate (see module section comment). -/
def chainSeg (mem : List (Node K V)) : Link → List Nat → List (K × V) → Link → Prop
  | _, [], [], _ => True
  | prv, i :: is, (k, v) :: kvs, nxt =>
      mem[i]? = some ⟨k, v, linkOf is nxt, prv⟩ ∧ chainSeg mem (some i) is kvs nxt
  | _, _, _, _ => False

/-- The identifier paired with the first occurrence of a key, walking the
identifier list and the key-value list side by side. -/
def findId : List Nat → List (K × V) → K → Option Nat
  | i :: is, (a, _) :: kvs, k => if a = k then some i else findId is kvs k
  | _, _, _ => none

/-- The key stored at the head of the recency list, when there is one. -/
def headKey (c : LruCache K V) : Option K :=
  c.head.bind fun i => (c.mem[i]?).map Node.key

/-- `Rep c ids kvs`: the cache state `c` represents the recency list `kvs`
(most-recently-used first), with `ids` the identifiers of the nodes carrying
it.  This is the structural invariant of the data structure: the identifiers
form a single acyclic doubly-linked chain whose first node has no
predecessor and whose last node has no successor, `head`/`tail` point at its
two ends, every resident key occurs exactly once, and the index `map` binds
exactly the chain's keys, each to a non-empty link holding the identifier of
that key's node. -/
structure Rep (c : LruCache K V) (ids : List Nat) (kvs : List (K × V)) : Prop where
  chain : chainSeg c.mem none ids kvs none
  head_eq : c.head = ids.head?
  tail_eq : c.tail = ids.getLast?
  nodup_ids : ids.Nodup
  nodup_keys : (kvs.map Prod.fst).Nodup
  map_len : c.map.length = kvs.length
  map_nodup : (c.map.map Prod.fst).Nodup
  map_get : ∀ a, mapGet c.map a = (findId ids kvs a).map some

/-! ## Lemmas about the embedded `HashMap` -/

theorem mapGet_eq_none {m : List (K × Link)} {k : K} :
    mapGet m k = none ↔ ∀ p ∈ m, p.1 ≠ k := by
  induction m with
  | nil => simp [mapGet]
  | cons p m ih =>
    obtain ⟨a, l⟩ := p
    by_cases h : a = k <;> simp [mapGet, h, ih]

theorem mapGet_mapRemove (m : List (K × Link)) (k a : K) :
    mapGet (mapRemove m k) a = if a = k then none else mapGet m a := by
  induction m with
  | nil => simp [mapGet, mapRemove]
  | cons p m ih =>
    obtain ⟨b, l⟩ := p
    by_cases hbk : b = k
    · subst hbk
      rw [show mapRemove ((b, l) :: m) b = mapRemove m b by simp [mapRemove], ih]
      by_cases hab : a = b
      · simp [hab]
      · simp [hab, mapGet, show ¬ b = a from fun h => hab h.symm]
    · rw [show mapRemove ((b, l) :: m) k = (b, l) :: mapRemove m k by simp [mapRemove, hbk]]
      by_cases hba : b = a
      · subst hba
        simp [mapGet, show ¬ b = k from hbk]
      · simp [mapGet, hba, ih]

theorem mapGet_mapInsert (m : List (K × Link)) (k a : K) (l : Link) :
    mapGet (mapInsert m k l) a = if k = a then some l else mapGet (mapRemove m k) a := by
  simp [mapInsert, mapGet]

theorem mapRemove_eq_self {m : List (K × Link)} {k : K} (h : mapGet m k = none) :
    mapRemove m k = m := by
  induction m with
  | nil => rfl
  | cons p m ih =>
    obtain ⟨b, l⟩ := p
    by_cases hbk : b = k
    · simp [mapGet, hbk] at h
    · simp only [mapGet, hbk, if_neg] at h
      simp [mapRemove, hbk, ih h]

theorem length_mapRemove_keys_nodup {m : List (K × Link)} {k : K}
    (hnd : (m.map Prod.fst).Nodup) (h : mapGet m k ≠ none) :
    (mapRemove m k).length + 1 = m.length := by
  induction m with
  | nil => simp [mapGet] at h
  | cons p m ih =>
    obtain ⟨b, l⟩ := p
    simp only [List.map_cons, List.nodup_cons] at hnd
    by_cases hbk : b = k
    · subst hbk
      have : mapGet m b = none := by
        rw [mapGet_eq_none]
        intro p hp hpb
        exact hnd.1 (hpb ▸ List.mem_map_of_mem Prod.fst hp)
      simp [mapRemove, mapRemove_eq_self this]
    · simp only [mapGet, hbk, if_neg] at h
      simp [mapRemove, hbk, ih hnd.2 h]

theorem keys_mapRemove_sublist (m : List (K × Link)) (k : K) :
    ((mapRemove m k).map Prod.fst).Sublist (m.map Prod.fst) := by
  induction m with
  | nil => simp [mapRemove]
  | cons p m ih =>
    obtain ⟨b, l⟩ := p
    by_cases hbk : b = k
    · simpa [mapRemove, hbk] using ih.trans (List.sublist_cons_self b (m.map Prod.fst))
    · simpa [mapRemove, hbk] using ih

theorem keys_mapRemove_nodup {m : List (K × Link)} (k : K)
    (hnd : (m.map Prod.fst).Nodup) : ((mapRemove m k).map Prod.fst).Nodup :=
  (keys_mapRemove_sublist m k).nodup hnd

theorem not_mem_keys_mapRemove (m : List (K × Link)) (k : K) :
    k ∉ (mapRemove m k).map Prod.fst := by
  induction m with
  | nil => simp [mapRemove]
  | cons p m ih =>
    obtain ⟨b, l⟩ := p
    by_cases hbk : b = k
    · simpa [mapRemove, hbk] using ih
    · simp only [mapRemove, hbk, ite_false, if_false, List.map_cons, List.mem_cons, not_or]
      exact ⟨fun h => hbk h.symm, ih⟩

theorem keys_mapInsert_nodup {m : List (K × Link)} (k : K) (l : Link)
    (hnd : (m.map Prod.fst).Nodup) : ((mapInsert m k l).map Prod.fst).Nodup := by
  rw [mapInsert, List.map_cons, List.nodup_cons]
  exact ⟨not_mem_keys_mapRemove m k, keys_mapRemove_nodup k hnd⟩

/-! ## Lemmas about the heap updates -/

@[simp] theorem length_setNext (mem : List (Node K V)) (i : Nat) (l : Link) :
    (setNext mem i l).length = mem.length := by
  unfold setNext; split <;> simp

@[simp] theorem length_setPrev (mem : List (Node K V)) (i : Nat) (l : Link) :
    (setPrev mem i l).length = mem.length := by
  unfold setPrev; split <;> simp

@[simp] theorem length_setData (mem : List (Node K V)) (i : Nat) (v : V) :
    (setData mem i v).length = mem.length := by
  unfold setData; split <;> simp

theorem getElem?_setNext (mem : List (Node K V)) (i : Nat) (l : Link) (j : Nat) :
    (setNext mem i l)[j]? =
      if i = j then Option.map (fun n => { n with next := l }) mem[j]? else mem[j]? := by
  unfold setNext
  split
  · rename_i n hn
    by_cases hij : i = j
    · subst hij
      rw [List.getElem?_set_self (List.getElem?_eq_some.mp hn).1, hn]
      simp
    · simp [List.getElem?_set_ne hij, hij]
  · rename_i hn
    by_cases hij : i = j
    · subst hij; simp [hn]
    · simp [hij]

theorem getElem?_setPrev (mem : List (Node K V)) (i : Nat) (l : Link) (j : Nat) :
    (setPrev mem i l)[j]? =
      if i = j then Option.map (fun n => { n with prev := l }) mem[j]? else mem[j]? := by
  unfold setPrev
  split
  · rename_i n hn
    by_cases hij : i = j
    · subst hij
      rw [List.getElem?_set_self (List.getElem?_eq_some.mp hn).1, hn]
      simp
    · simp [List.getElem?_set_ne hij, hij]
  · rename_i hn
    by_cases hij : i = j
    · subst hij; simp [hn]
    · simp [hij]

theorem getElem?_setData (mem : List (Node K V)) (i : Nat) (v : V) (j : Nat) :
    (setData mem i v)[j]? =
      if i = j then Option.map (fun n => { n with data := v }) mem[j]? else mem[j]? := by
  unfold setData
  split
  · rename_i n hn
    by_cases hij : i = j
    · subst hij
      rw [List.getElem?_set_self (List.getElem?_eq_some.mp hn).1, hn]
      simp
    · simp [List.getElem?_set_ne hij, hij]
  · rename_i hn
    by_cases hij : i = j
    · subst hij; simp [hn]
    · simp [hij]

/-! ## Lemmas about chain segments -/

@[simp] theorem linkOf_nil (nxt : Link) : linkOf [] nxt = nxt := rfl

@[simp] theorem linkOf_cons (j : Nat) (is : List Nat) (nxt : Link) :
    linkOf (j :: is) nxt = some j := rfl

theorem linkOf_append (l1 l2 : List Nat) (nxt : Link) :
    linkOf (l1 ++ l2) nxt = linkOf l1 (linkOf l2 nxt) := by
  cases l1 <;> simp

theorem linkOf_none_eq_head? (l : List Nat) : linkOf l none = l.head? := by
  cases l <;> simp

@[simp] theorem backLink_nil (p : Link) : backLink [] p = p := rfl

theorem backLink_cons (j : Nat) (is : List Nat) (p : Link) :
    backLink (j :: is) p = backLink is (some j) := rfl

theorem backLink_eq_getLast? (l : List Nat) (p : Link) :
    backLink l p = l.getLast?.or p := by
  induction l generalizing p with
  | nil => simp
  | cons j is ih =>
    rw [backLink_cons, ih]
    cases is with
    | nil => simp
    | cons j2 is2 =>
      rw [List.getLast?_cons_cons]
      have hs : (j2 :: is2).getLast?.isSome := by
        rw [List.getLast?_isSome]
        simp
      obtain ⟨x, hx⟩ := Option.isSome_iff_exists.mp hs
      rw [hx]
      rfl

theorem chainSeg_length {mem : List (Node K V)} {p : Link} {ids : List Nat}
    {kvs : List (K × V)} {nxt : Link} (h : chainSeg mem p ids kvs nxt) :
    ids.length = kvs.length := by
  induction ids generalizing p kvs with
  | nil => cases kvs with
    | nil => rfl
    | cons q kvs => exact absurd h (by simp [chainSeg])
  | cons i is ih =>
    cases kvs with
    | nil => exact absurd h (by simp [chainSeg])
    | cons q kvs =>
      obtain ⟨k, v⟩ := q
      rw [chainSeg] at h
      simp [ih h.2]

theorem chainSeg_nil_iff {mem : List (Node K V)} {p : Link} {kvs : List (K × V)}
    {nxt : Link} : chainSeg mem p [] kvs nxt ↔ kvs = [] := by
  cases kvs with
  | nil => simp [chainSeg]
  | cons q kvs => simp [chainSeg]

theorem chainSeg_frame {mem1 mem2 : List (Node K V)} {p : Link} {ids : List Nat}
    {kvs : List (K × V)} {nxt : Link} (h : chainSeg mem1 p ids kvs nxt)
    (hsame : ∀ i ∈ ids, mem2[i]? = mem1[i]?) : chainSeg mem2 p ids kvs nxt := by
  induction ids generalizing p kvs with
  | nil => rwa [chainSeg_nil_iff] at h ⊢
  | cons i is ih =>
    cases kvs with
    | nil => exact absurd h (by simp [chainSeg])
    | cons q kvs =>
      obtain ⟨k, v⟩ := q
      rw [chainSeg] at h ⊢
      exact ⟨(hsame i (by simp)).trans h.1,
        ih h.2 fun j hj => hsame j (by simp [hj])⟩

theorem chainSeg_lt_length {mem : List (Node K V)} {p : Link} {ids : List Nat}
    {kvs : List (K × V)} {nxt : Link} (h : chainSeg mem p ids kvs nxt) :
    ∀ i ∈ ids, i < mem.length := by
  induction ids generalizing p kvs with
  | nil => simp
  | cons i is ih =>
    cases kvs with
    | nil => exact absurd h (by simp [chainSeg])
    | cons q kvs =>
      obtain ⟨k, v⟩ := q
      rw [chainSeg] at h
      intro j hj
      rcases List.mem_cons.mp hj with rfl | hj2
      · exact (List.getElem?_eq_some.mp h.1).1
      · exact ih h.2 j hj2

theorem chainSeg_append_iff {mem : List (Node K V)} {p : Link} {l1 l2 : List Nat}
    {m1 m2 : List (K × V)} {nxt : Link} (hlen : l1.length = m1.length) :
    chainSeg mem p (l1 ++ l2) (m1 ++ m2) nxt ↔
      chainSeg mem p l1 m1 (linkOf l2 nxt) ∧ chainSeg mem (backLink l1 p) l2 m2 nxt := by
  induction l1 generalizing p m1 with
  | nil =>
    cases m1 with
    | nil => simp [chainSeg]
    | cons q m1 => simp at hlen
  | cons i is ih =>
    cases m1 with
    | nil => simp at hlen
    | cons q m1 =>
      obtain ⟨k, v⟩ := q
      simp only [List.cons_append, chainSeg, List.append_eq, linkOf_append, backLink_cons]
      rw [ih (by simpa using hlen)]
      tauto

/-- Updating the `prev` field of the first node of a segment re-roots the
segment at any other incoming link; the other nodes are untouched because
the first identifier occurs only once. -/
theorem chainSeg_setPrev_head {mem : List (Node K V)} {p p2 : Link} {i : Nat}
    {is : List Nat} {kvs : List (K × V)} {nxt : Link}
    (h : chainSeg mem p (i :: is) kvs nxt) (hi : i ∉ is) :
    chainSeg (setPrev mem i p2) p2 (i :: is) kvs nxt := by
  cases kvs with
  | nil => exact absurd h (by simp [chainSeg])
  | cons q kvs =>
    obtain ⟨k, v⟩ := q
    rw [chainSeg] at h ⊢
    refine ⟨?_, chainSeg_frame h.2 fun j hj => ?_⟩
    · rw [getElem?_setPrev, if_pos rfl, h.1]
      rfl
    · rw [getElem?_setPrev, if_neg]
      exact fun hij => hi (hij ▸ hj)

/-- Updating the `next` field of the last node of a segment re-targets the
segment at any other outgoing link; the other nodes are untouched because
the last identifier occurs only once. -/
theorem chainSeg_setNext_last {mem : List (Node K V)} {p : Link} {ids : List Nat}
    {kvs : List (K × V)} {nxt1 nxt2 : Link} {j : Nat}
    (h : chainSeg mem p ids kvs nxt1) (hnd : ids.Nodup)
    (hj : ids.getLast? = some j) :
    chainSeg (setNext mem j nxt2) p ids kvs nxt2 := by
  induction ids generalizing p kvs with
  | nil => simp at hj
  | cons i is ih =>
    cases kvs with
    | nil => exact absurd h (by simp [chainSeg])
    | cons q kvs =>
      obtain ⟨k, v⟩ := q
      rw [chainSeg] at h
      rw [chainSeg]
      rw [List.nodup_cons] at hnd
      cases is with
      | nil =>
        rw [chainSeg_nil_iff] at h
        obtain ⟨h1, rfl⟩ := h
        simp only [List.getLast?_singleton, Option.some_inj] at hj
        subst hj
        refine ⟨?_, by rw [chainSeg_nil_iff]⟩
        rw [getElem?_setNext, if_pos rfl, h1]
        rfl
      | cons i2 is2 =>
        have hj2 : (i2 :: is2).getLast? = some j := by
          rwa [List.getLast?_cons_cons] at hj
        have hji : j ≠ i := by
          intro hji
          exact hnd.1 (hji ▸ List.mem_of_mem_getLast? hj2)
        refine ⟨?_, ih h.2 hnd.2 hj2⟩
        rw [getElem?_setNext, if_neg hji, h.1]
        simp

/-- Updating the stored value of the node in the middle of a chain keeps the
chain shape and replaces the corresponding pair of the key-value list. -/
theorem chainSeg_setData_mid {mem : List (Node K V)} {p : Link} {l1 l2 : List Nat}
    {m1 m2 : List (K × V)} {i : Nat} {k : K} {v v2 : V} {nxt : Link}
    (hchain : chainSeg mem p (l1 ++ i :: l2) (m1 ++ (k, v) :: m2) nxt)
    (hnd : (l1 ++ i :: l2).Nodup) (hlen : l1.length = m1.length) :
    chainSeg (setData mem i v2) p (l1 ++ i :: l2) (m1 ++ (k, v2) :: m2) nxt := by
  rw [chainSeg_append_iff hlen] at hchain ⊢
  rw [List.nodup_append] at hnd
  have hi1 : i ∉ l1 := fun hmem => hnd.2.2 hmem (by simp)
  have hi2 : i ∉ l2 := by
    have := hnd.2.1
    rw [List.nodup_cons] at this
    exact this.1
  refine ⟨chainSeg_frame hchain.1 fun j hj => ?_, ?_⟩
  · have hne : i ≠ j := fun hij => hi1 (hij ▸ hj)
    rw [getElem?_setData, if_neg hne]
  · have h2 := hchain.2
    rw [chainSeg] at h2 ⊢
    refine ⟨?_, chainSeg_frame h2.2 fun j hj => ?_⟩
    · rw [getElem?_setData, if_pos rfl, h2.1]
      rfl
    · have hne : i ≠ j := fun hij => hi2 (hij ▸ hj)
      rw [getElem?_setData, if_neg hne]

/-! ## Lemmas about `findId` -/

@[simp] theorem findId_nil (kvs : List (K × V)) (a : K) : findId [] kvs a = none := by
  cases kvs <;> rfl

@[simp] theorem findId_nil_right (ids : List Nat) (a : K) :
    findId (K := K) (V := V) ids [] a = none := by
  cases ids <;> rfl

theorem findId_cons (i : Nat) (is : List Nat) (k : K) (v : V) (kvs : List (K × V)) (a : K) :
    findId (i :: is) ((k, v) :: kvs) a = if k = a then some i else findId is kvs a := rfl

theorem findId_eq_none_of_not_mem {kvs : List (K × V)} {a : K}
    (h : a ∉ kvs.map Prod.fst) (ids : List Nat) : findId ids kvs a = none := by
  induction kvs generalizing ids with
  | nil => simp
  | cons q kvs ih =>
    obtain ⟨k, v⟩ := q
    cases ids with
    | nil => simp
    | cons i is =>
      simp only [List.map_cons, List.mem_cons, not_or] at h
      rw [findId_cons, if_neg (fun hh => h.1 hh.symm), ih h.2]

theorem findId_isSome_of_mem {ids : List Nat} {kvs : List (K × V)} {a : K}
    (hlen : ids.length = kvs.length) (h : a ∈ kvs.map Prod.fst) :
    (findId ids kvs a).isSome := by
  induction kvs generalizing ids with
  | nil => simp at h
  | cons q kvs ih =>
    obtain ⟨k, v⟩ := q
    cases ids with
    | nil => simp at hlen
    | cons i is =>
      rw [findId_cons]
      by_cases hk : k = a
      · simp [hk]
      · simp only [List.map_cons, List.mem_cons] at h
        rcases h with h | h
        · exact absurd h.symm hk
        · simpa [hk] using ih (by simpa using hlen) h

theorem findId_append {l1 l2 : List Nat} {m1 m2 : List (K × V)} (a : K)
    (hlen : l1.length = m1.length) :
    findId (l1 ++ l2) (m1 ++ m2) a = (findId l1 m1 a).or (findId l2 m2 a) := by
  induction l1 generalizing m1 with
  | nil =>
    cases m1 with
    | nil => simp
    | cons q m1 => simp at hlen
  | cons i is ih =>
    cases m1 with
    | nil => simp at hlen
    | cons q m1 =>
      obtain ⟨k, v⟩ := q
      rw [List.cons_append, List.cons_append, findId_cons, findId_cons]
      by_cases hk : k = a
      · rw [if_pos hk, if_pos hk]
        rfl
      · rw [if_neg hk, if_neg hk, ih (by simpa using hlen)]

theorem findId_middle {pre post : List Nat} {kpre kpost : List (K × V)} {i : Nat}
    {k : K} {v : V} (hlen : pre.length = kpre.length)
    (hk : k ∉ kpre.map Prod.fst) :
    findId (pre ++ i :: post) (kpre ++ (k, v) :: kpost) k = some i := by
  rw [findId_append k hlen, findId_eq_none_of_not_mem hk pre, findId_cons]
  simp

/-- Moving the entry of the key `k` from the middle to the front does not
change any lookup, provided `k` does not also occur earlier. -/
theorem findId_move_to_front {pre post : List Nat} {kpre kpost : List (K × V)}
    {i : Nat} {k : K} {v : V} (hlen : pre.length = kpre.length)
    (hk : k ∉ kpre.map Prod.fst) (a : K) :
    findId (i :: (pre ++ post)) ((k, v) :: (kpre ++ kpost)) a =
      findId (pre ++ i :: post) (kpre ++ (k, v) :: kpost) a := by
  rw [findId_cons, findId_append a hlen, findId_append a hlen, findId_cons]
  by_cases hka : k = a
  · subst hka
    rw [findId_eq_none_of_not_mem hk pre]
    simp
  · rw [if_neg hka, if_neg hka]

/-! ## Reduction of the operations at resolved states -/

open LruCache

theorem remove_node_eq_only {c : LruCache K V} {i : Nat} {k : K} {v : V}
    (hn : c.mem[i]? = some ⟨k, v, none, none⟩) :
    remove_node c (some i) = { c with head := none, tail := none } := by
  simp [remove_node, hn]

theorem remove_node_eq_last {c : LruCache K V} {i p : Nat} {k : K} {v : V}
    (hn : c.mem[i]? = some ⟨k, v, none, some p⟩) :
    remove_node c (some i) = { c with mem := setNext c.mem p none, tail := some p } := by
  simp [remove_node, hn]

theorem remove_node_eq_first {c : LruCache K V} {i q : Nat} {k : K} {v : V}
    (hn : c.mem[i]? = some ⟨k, v, some q, none⟩) :
    remove_node c (some i) = { c with mem := setPrev c.mem q none, head := some q } := by
  simp [remove_node, hn]

theorem remove_node_eq_mid {c : LruCache K V} {i p q : Nat} {k : K} {v : V}
    (hn : c.mem[i]? = some ⟨k, v, some q, some p⟩) :
    remove_node c (some i) =
      { c with mem := setPrev (setNext c.mem p (some q)) q (some p) } := by
  simp [remove_node, hn]

theorem push_front_eq_empty {c : LruCache K V} {i : Nat}
    (hh : c.head = none) (ht : c.tail = none) :
    push_front c (some i) =
      { c with mem := setPrev (setNext c.mem i none) i none,
               head := some i, tail := some i } := by
  simp [push_front, hh, ht]

theorem push_front_eq_cons {c : LruCache K V} {i h : Nat}
    (hh : c.head = some h) (ht : c.tail ≠ none) :
    push_front c (some i) =
      { c with mem := setPrev (setPrev (setNext c.mem i (some h)) i none) h (some i),
               head := some i } := by
  simp [push_front, hh, ht]

/-! ## Components untouched by the list primitives -/

@[simp] theorem remove_node_capacity (c : LruCache K V) (l : Link) :
    (remove_node c l).capacity = c.capacity := by
  unfold remove_node
  split
  · rfl
  · split
    · rfl
    · rename_i n heq
      obtain ⟨k, v, nl, pl⟩ := n
      cases nl <;> cases pl <;> rfl

@[simp] theorem remove_node_map (c : LruCache K V) (l : Link) :
    (remove_node c l).map = c.map := by
  unfold remove_node
  split
  · rfl
  · split
    · rfl
    · rename_i n heq
      obtain ⟨k, v, nl, pl⟩ := n
      cases nl <;> cases pl <;> rfl

@[simp] theorem remove_node_mem_length (c : LruCache K V) (l : Link) :
    (remove_node c l).mem.length = c.mem.length := by
  unfold remove_node
  split
  · rfl
  · split
    · rfl
    · rename_i n heq
      obtain ⟨k, v, nl, pl⟩ := n
      cases nl <;> cases pl <;> simp

@[simp] theorem push_front_capacity (c : LruCache K V) (l : Link) :
    (push_front c l).capacity = c.capacity := by
  cases l with
  | none => rfl
  | some i => cases hh : c.head <;> by_cases ht : c.tail = none <;> simp [push_front, hh, ht]

@[simp] theorem push_front_map (c : LruCache K V) (l : Link) :
    (push_front c l).map = c.map := by
  cases l with
  | none => rfl
  | some i => cases hh : c.head <;> by_cases ht : c.tail = none <;> simp [push_front, hh, ht]

@[simp] theorem push_front_mem_length (c : LruCache K V) (l : Link) :
    (push_front c l).mem.length = c.mem.length := by
  cases l with
  | none => rfl
  | some i => cases hh : c.head <;> by_cases ht : c.tail = none <;> simp [push_front, hh, ht]

/-! ## Reduction of `get` and `put` by branch -/

theorem get_eq_hit {c : LruCache K V} {k : K} {i : Nat} {n : Node K V}
    (hmap : mapGet c.map k = some (some i)) (hn : c.mem[i]? = some n) :
    get c k = (some n.data, push_front (remove_node c (some i)) (some i)) := by
  simp [LruCache.get, hmap, hn]

theorem get_eq_miss {c : LruCache K V} {k : K} (hmap : mapGet c.map k = none) :
    get c k = (none, c) := by
  simp [LruCache.get, hmap]

theorem put_eq_hit {c : LruCache K V} {k : K} {i : Nat} (v : V)
    (hmap : mapGet c.map k = some (some i)) :
    put c k v =
      push_front (remove_node { c with mem := setData c.mem i v } (some i)) (some i) := by
  simp [LruCache.put, hmap]

theorem put_eq_grow {c : LruCache K V} {k : K} (v : V)
    (hmap : mapGet c.map k = none) (hcap : c.map.length < c.capacity) :
    put c k v = insertFresh c k v := by
  have hc : ¬ c.capacity ≤ c.map.length := Nat.not_le.mpr hcap
  simp [LruCache.put, insertFresh, hmap, hc, push_front_map]

theorem put_eq_empty {c : LruCache K V} {k : K} (v : V)
    (hmap : mapGet c.map k = none) (ht : c.tail = none) :
    put c k v = insertFresh c k v := by
  by_cases hc : c.capacity ≤ c.map.length
  · simp [LruCache.put, insertFresh, hmap, hc, ht, push_front_map]
  · simp [LruCache.put, insertFresh, hmap, hc, push_front_map]

theorem put_eq_evict {c : LruCache K V} {k : K} {t : Nat} {kt : K} {vt : V}
    {nl pl : Link} (v : V)
    (hmap : mapGet c.map k = none) (hcap : c.capacity ≤ c.map.length)
    (ht : c.tail = some t) (htn : c.mem[t]? = some ⟨kt, vt, nl, pl⟩) :
    put c k v =
      insertFresh (remove_node { c with map := mapRemove c.map kt } (some t)) k v := by
  simp [LruCache.put, insertFresh, hmap, hcap, ht, htn, push_front_map, remove_node_map,
    remove_node_mem_length]

/-! ## Specifications of the list primitives on well-formed chains -/

theorem head?_append_congr {α : Type} {l1 : List α} (l2 l3 : List α) (h : l1 ≠ []) :
    (l1 ++ l2).head? = (l1 ++ l3).head? := by
  cases l1 with
  | nil => exact absurd rfl h
  | cons a l1 => rfl

theorem getLast?_append_cons_cons {α : Type} (l1 : List α) (a b : α) (l2 : List α) :
    (l1 ++ a :: b :: l2).getLast? = (l1 ++ b :: l2).getLast? := by
  rw [List.getLast?_append, List.getLast?_append, List.getLast?_cons_cons]

/-- Effect of `remove_node` on a node in the middle of the represented chain:
the node is spliced out, the index map and the node contents (the removed
node's own fields included) are untouched. -/
theorem remove_node_spec {c : LruCache K V} {pre post : List Nat}
    {kpre kpost : List (K × V)} {i : Nat} {k : K} {v : V}
    (hchain : chainSeg c.mem none (pre ++ i :: post) (kpre ++ (k, v) :: kpost) none)
    (hnd : (pre ++ i :: post).Nodup)
    (hlen : pre.length = kpre.length)
    (hhead : c.head = (pre ++ i :: post).head?)
    (htail : c.tail = (pre ++ i :: post).getLast?) :
    (remove_node c (some i)).capacity = c.capacity ∧
    (remove_node c (some i)).map = c.map ∧
    (remove_node c (some i)).mem.length = c.mem.length ∧
    (remove_node c (some i)).head = (pre ++ post).head? ∧
    (remove_node c (some i)).tail = (pre ++ post).getLast? ∧
    chainSeg (remove_node c (some i)).mem none (pre ++ post) (kpre ++ kpost) none ∧
    (remove_node c (some i)).mem[i]? = c.mem[i]? := by
  rw [chainSeg_append_iff hlen] at hchain
  simp only [linkOf_cons] at hchain
  obtain ⟨hseg1, hseg2⟩ := hchain
  rw [chainSeg] at hseg2
  obtain ⟨hni, hseg2⟩ := hseg2
  rw [List.nodup_append] at hnd
  obtain ⟨hndpre, hndcons, hdisj⟩ := hnd
  rw [List.nodup_cons] at hndcons
  obtain ⟨hipost, hndpost⟩ := hndcons
  have hipre : i ∉ pre := fun hip => hdisj hip (List.mem_cons_self i post)
  rcases List.eq_nil_or_concat pre with hpre | ⟨pre0, p, hpre⟩
  · subst hpre
    have hkpre : kpre = [] := List.length_eq_zero.mp hlen.symm
    subst hkpre
    simp only [backLink_nil, List.nil_append] at hni hseg2 hhead htail ⊢
    cases post with
    | nil =>
      rw [chainSeg_nil_iff] at hseg2
      subst hseg2
      simp only [linkOf_nil] at hni
      rw [remove_node_eq_only hni]
      exact ⟨rfl, rfl, rfl, rfl, rfl, trivial, rfl⟩
    | cons q post2 =>
      simp only [linkOf_cons] at hni
      rw [remove_node_eq_first hni]
      have hiq : ¬ q = i := fun hcon => hipost (hcon ▸ List.mem_cons_self q post2)
      have hqpost2 : q ∉ post2 := (List.nodup_cons.mp hndpost).1
      refine ⟨rfl, rfl, by simp, rfl, ?_, ?_, ?_⟩
      · rw [htail, List.getLast?_cons_cons]
      · exact chainSeg_setPrev_head hseg2 hqpost2
      · rw [getElem?_setPrev, if_neg hiq]
  · rw [List.concat_eq_append] at hpre
    subst hpre
    have hplast : (pre0 ++ [p]).getLast? = some p := List.getLast?_concat _
    have hback : backLink (pre0 ++ [p]) none = some p := by
      rw [backLink_eq_getLast?, hplast]
      rfl
    rw [hback] at hni
    have hpi : ¬ p = i :=
      fun hcon => hipre (hcon ▸ List.mem_append_right pre0 (List.mem_singleton.mpr rfl))
    have hpre_ne : pre0 ++ [p] ≠ [] := by simp
    cases post with
    | nil =>
      rw [chainSeg_nil_iff] at hseg2
      subst hseg2
      simp only [linkOf_nil] at hni
      rw [remove_node_eq_last hni]
      refine ⟨rfl, rfl, by simp, ?_, ?_, ?_, ?_⟩
      · rw [hhead]
        exact head?_append_congr (i :: []) [] hpre_ne
      · simp [hplast]
      · simp only [List.append_nil]
        exact chainSeg_setNext_last hseg1 hndpre hplast
      · rw [getElem?_setNext, if_neg hpi]
    | cons q post2 =>
      simp only [linkOf_cons] at hni
      rw [remove_node_eq_mid hni]
      have hqmem : q ∈ i :: q :: post2 := by simp
      have hqpre : q ∉ pre0 ++ [p] := fun hq => hdisj hq hqmem
      have hppost : p ∉ i :: q :: post2 :=
        hdisj (List.mem_append_right pre0 (List.mem_singleton.mpr rfl))
      have hpqpost : p ∉ q :: post2 := fun hp => hppost (List.mem_cons_of_mem i hp)
      have hiq : ¬ q = i := fun hcon => hipost (hcon ▸ List.mem_cons_self q post2)
      have hqpost2 : q ∉ post2 := (List.nodup_cons.mp hndpost).1
      refine ⟨rfl, rfl, by simp, ?_, ?_, ?_, ?_⟩
      · rw [hhead]
        exact head?_append_congr (i :: q :: post2) (q :: post2) hpre_ne
      · rw [htail]
        exact getLast?_append_cons_cons (pre0 ++ [p]) i q post2
      · rw [chainSeg_append_iff hlen]
        simp only [linkOf_cons]
        constructor
        · have step1 : chainSeg (setNext c.mem p (some q)) none (pre0 ++ [p]) kpre (some q) :=
            chainSeg_setNext_last hseg1 hndpre hplast
          exact chainSeg_frame step1 fun j hj => by
            have hne : q ≠ j := fun hcon => hqpre (hcon ▸ hj)
            rw [getElem?_setPrev, if_neg hne]
        · rw [hback]
          have step2 : chainSeg (setNext c.mem p (some q)) (some i) (q :: post2) kpost none :=
            chainSeg_frame hseg2 fun j hj => by
              have hne : p ≠ j := fun hcon => hpqpost (hcon ▸ hj)
              rw [getElem?_setNext, if_neg hne]
          exact chainSeg_setPrev_head step2 hqpost2
      · rw [getElem?_setPrev, if_neg hiq, getElem?_setNext, if_neg hpi]

/-- Effect of `push_front` on a node that is not part of the represented
chain: the node becomes the new head, carrying its key and value. -/
theorem push_front_spec {c : LruCache K V} {ids : List Nat} {kvs : List (K × V)}
    {i : Nat} {k : K} {v : V} {nl pl : Link}
    (hchain : chainSeg c.mem none ids kvs none)
    (hhead : c.head = ids.head?) (htail : c.tail = ids.getLast?)
    (hnd : ids.Nodup) (hi : i ∉ ids) (hn : c.mem[i]? = some ⟨k, v, nl, pl⟩) :
    (push_front c (some i)).capacity = c.capacity ∧
    (push_front c (some i)).map = c.map ∧
    (push_front c (some i)).mem.length = c.mem.length ∧
    (push_front c (some i)).head = some i ∧
    (push_front c (some i)).tail = (i :: ids).getLast? ∧
    chainSeg (push_front c (some i)).mem none (i :: ids) ((k, v) :: kvs) none := by
  cases ids with
  | nil =>
    rw [chainSeg_nil_iff] at hchain
    subst hchain
    have hh : c.head = none := by rw [hhead]; rfl
    have ht : c.tail = none := by rw [htail]; rfl
    rw [push_front_eq_empty hh ht]
    refine ⟨rfl, rfl, by simp, rfl, rfl, ?_⟩
    rw [chainSeg]
    refine ⟨?_, trivial⟩
    rw [getElem?_setPrev, if_pos rfl, getElem?_setNext, if_pos rfl, hn]
    rfl
  | cons h ids2 =>
    cases kvs with
    | nil => exact absurd hchain (by simp [chainSeg])
    | cons q kvs2 =>
      have hh : c.head = some h := by rw [hhead]; rfl
      have ht : c.tail ≠ none := by
        rw [htail]
        have hsome : (h :: ids2).getLast?.isSome := by
          rw [List.getLast?_isSome]
          simp
        intro hcon
        rw [hcon] at hsome
        simp at hsome
      rw [push_front_eq_cons hh ht]
      obtain ⟨hhk, hnd2⟩ := List.nodup_cons.mp hnd
      have hih : i ≠ h := fun hcon => hi (hcon ▸ List.mem_cons_self h ids2)
      refine ⟨rfl, rfl, by simp, rfl, ?_, ?_⟩
      · rw [List.getLast?_cons_cons]
        exact htail
      · rw [chainSeg]
        constructor
        · rw [getElem?_setPrev, if_neg (fun hcon => hih hcon.symm),
            getElem?_setPrev, if_pos rfl, getElem?_setNext, if_pos rfl, hn]
          rfl
        · have s1 : chainSeg (setNext c.mem i (some h)) none (h :: ids2) (q :: kvs2) none :=
            chainSeg_frame hchain fun j hj => by
              have hne : i ≠ j := fun hcon => hi (hcon ▸ hj)
              rw [getElem?_setNext, if_neg hne]
          have s2 : chainSeg (setPrev (setNext c.mem i (some h)) i none) none
              (h :: ids2) (q :: kvs2) none :=
            chainSeg_frame s1 fun j hj => by
              have hne : i ≠ j := fun hcon => hi (hcon ▸ hj)
              rw [getElem?_setPrev, if_neg hne]
          exact chainSeg_setPrev_head s2 hhk

/-! ## Specifications of `get` and `put` on represented states -/

theorem findId_some_decomp {ids : List Nat} {kvs : List (K × V)} {a : K} {i : Nat}
    (h : findId ids kvs a = some i) :
    ∃ pre post kpre v kpost, ids = pre ++ i :: post ∧ kvs = kpre ++ (a, v) :: kpost ∧
      pre.length = kpre.length ∧ a ∉ kpre.map Prod.fst := by
  induction ids generalizing kvs with
  | nil => simp at h
  | cons i0 is ih =>
    cases kvs with
    | nil => simp at h
    | cons q kvs2 =>
      obtain ⟨b, w⟩ := q
      rw [findId_cons] at h
      by_cases hb : b = a
      · rw [if_pos hb] at h
        obtain rfl : i0 = i := Option.some_inj.mp h
        subst hb
        exact ⟨[], is, [], w, kvs2, rfl, rfl, rfl, by simp⟩
      · rw [if_neg hb] at h
        obtain ⟨pre, post, kpre, v, kpost, h1, h2, h3, h4⟩ := ih h
        refine ⟨i0 :: pre, post, (b, w) :: kpre, v, kpost, by rw [h1]; rfl, by rw [h2]; rfl,
          by simp [h3], ?_⟩
        simp only [List.map_cons, List.mem_cons, not_or]
        exact ⟨fun hc => hb hc.symm, h4⟩

theorem findId_congr_keys {ids : List Nat} {kvs1 kvs2 : List (K × V)}
    (h : kvs1.map Prod.fst = kvs2.map Prod.fst) (a : K) :
    findId ids kvs1 a = findId ids kvs2 a := by
  induction ids generalizing kvs1 kvs2 with
  | nil => simp
  | cons i is ih =>
    cases kvs1 with
    | nil =>
      cases kvs2 with
      | nil => rfl
      | cons q t => simp at h
    | cons q1 t1 =>
      cases kvs2 with
      | nil => simp at h
      | cons q2 t2 =>
        obtain ⟨b1, w1⟩ := q1
        obtain ⟨b2, w2⟩ := q2
        simp only [List.map_cons, List.cons.injEq] at h
        rw [findId_cons, findId_cons, h.1, ih h.2]

theorem chainSeg_middle_node {mem : List (Node K V)} {p nxt : Link} {pre post : List Nat}
    {kpre kpost : List (K × V)} {i : Nat} {k : K} {v : V}
    (h : chainSeg mem p (pre ++ i :: post) (kpre ++ (k, v) :: kpost) nxt)
    (hlen : pre.length = kpre.length) :
    mem[i]? = some ⟨k, v, linkOf post nxt, backLink pre p⟩ := by
  rw [chainSeg_append_iff hlen] at h
  have h2 := h.2
  rw [chainSeg] at h2
  exact h2.1

theorem Rep_new (cap : Nat) : Rep (new K V cap) [] [] :=
  ⟨trivial, rfl, rfl, List.nodup_nil, List.nodup_nil, rfl, List.nodup_nil, fun _ => rfl⟩

theorem Rep.ids_length {c : LruCache K V} {ids : List Nat} {kvs : List (K × V)}
    (hR : Rep c ids kvs) : ids.length = kvs.length :=
  chainSeg_length hR.chain

theorem Rep.not_mem_keys_of_mapGet_none {c : LruCache K V} {ids : List Nat}
    {kvs : List (K × V)} {k : K} (hR : Rep c ids kvs) (h : mapGet c.map k = none) :
    k ∉ kvs.map Prod.fst := by
  intro hmem
  have hs := findId_isSome_of_mem hR.ids_length hmem
  rw [hR.map_get k] at h
  cases hfi : findId ids kvs k with
  | none => rw [hfi] at hs; simp at hs
  | some j => rw [hfi] at h; simp at h

theorem Rep.mapGet_none_of_not_mem {c : LruCache K V} {ids : List Nat}
    {kvs : List (K × V)} {k : K} (hR : Rep c ids kvs) (h : k ∉ kvs.map Prod.fst) :
    mapGet c.map k = none := by
  rw [hR.map_get k, findId_eq_none_of_not_mem h ids]
  rfl

/-- `get` on a resident key: returns the stored value and moves the entry to
the front of the recency list; the index map is untouched. -/
theorem get_spec_hit {c : LruCache K V} {pre post : List Nat}
    {kpre kpost : List (K × V)} {i : Nat} {k : K} {v : V}
    (hR : Rep c (pre ++ i :: post) (kpre ++ (k, v) :: kpost))
    (hlen : pre.length = kpre.length) (hknot : k ∉ kpre.map Prod.fst) :
    (get c k).1 = some v ∧
    Rep (get c k).2 (i :: (pre ++ post)) ((k, v) :: (kpre ++ kpost)) ∧
    (get c k).2.capacity = c.capacity ∧
    (get c k).2.map = c.map ∧
    (get c k).2.mem.length = c.mem.length := by
  have hfind : findId (pre ++ i :: post) (kpre ++ (k, v) :: kpost) k = some i :=
    findId_middle hlen hknot
  have hmap : mapGet c.map k = some (some i) := by
    rw [hR.map_get k, hfind]
    rfl
  have hni : c.mem[i]? = some ⟨k, v, linkOf post none, backLink pre none⟩ :=
    chainSeg_middle_node hR.chain hlen
  rw [get_eq_hit hmap hni]
  obtain ⟨rcap, rmap, rlen, rhead, rtail, rchain, rnode⟩ :=
    remove_node_spec hR.chain hR.nodup_ids hlen hR.head_eq hR.tail_eq
  have hnd := hR.nodup_ids
  rw [List.nodup_append] at hnd
  obtain ⟨hndpre, hndcons, hdisj⟩ := hnd
  rw [List.nodup_cons] at hndcons
  have hi_not : i ∉ pre ++ post := by
    rw [List.mem_append]
    rintro (hip | hip)
    · exact hdisj hip (List.mem_cons_self i post)
    · exact hndcons.1 hip
  have hnd2 : (pre ++ post).Nodup :=
    ((List.sublist_cons_self i post).append_left pre).nodup hR.nodup_ids
  have rnode2 : (remove_node c (some i)).mem[i]? =
      some ⟨k, v, linkOf post none, backLink pre none⟩ := by
    rw [rnode, hni]
  obtain ⟨pcap, pmap, plen, phead, ptail, pchain⟩ :=
    push_front_spec rchain rhead rtail hnd2 hi_not rnode2
  have hkeysPerm :
      ((kpre ++ (k, v) :: kpost).map Prod.fst).Perm
        (((k, v) :: (kpre ++ kpost)).map Prod.fst) := by
    simp only [List.map_append, List.map_cons]
    exact List.perm_middle
  refine ⟨rfl, ?_, by rw [pcap, rcap], by rw [pmap, rmap], by rw [plen, rlen]⟩
  refine ⟨pchain, phead, ptail, List.nodup_cons.mpr ⟨hi_not, hnd2⟩,
    hkeysPerm.nodup hR.nodup_keys, ?_, ?_, ?_⟩
  · rw [pmap, rmap, hR.map_len]
    simp
    omega
  · rw [pmap, rmap]
    exact hR.map_nodup
  · intro a
    rw [pmap, rmap, findId_move_to_front hlen hknot a]
    exact hR.map_get a

/-- `put` on a resident key: overwrites the stored value and moves the entry
to the front; the index map is untouched (no eviction, no growth). -/
theorem put_spec_hit {c : LruCache K V} {pre post : List Nat}
    {kpre kpost : List (K × V)} {i : Nat} {k : K} {v : V} (v2 : V)
    (hR : Rep c (pre ++ i :: post) (kpre ++ (k, v) :: kpost))
    (hlen : pre.length = kpre.length) (hknot : k ∉ kpre.map Prod.fst) :
    Rep (put c k v2) (i :: (pre ++ post)) ((k, v2) :: (kpre ++ kpost)) ∧
    (put c k v2).capacity = c.capacity ∧
    (put c k v2).map = c.map ∧
    (put c k v2).mem.length = c.mem.length := by
  have hfind : findId (pre ++ i :: post) (kpre ++ (k, v) :: kpost) k = some i :=
    findId_middle hlen hknot
  have hmap : mapGet c.map k = some (some i) := by
    rw [hR.map_get k, hfind]
    rfl
  rw [put_eq_hit v2 hmap]
  have hchainS : chainSeg (setData c.mem i v2) none (pre ++ i :: post)
      (kpre ++ (k, v2) :: kpost) none :=
    chainSeg_setData_mid hR.chain hR.nodup_ids hlen
  obtain ⟨rcap, rmap, rlen, rhead, rtail, rchain, rnode⟩ :=
    remove_node_spec (c := { c with mem := setData c.mem i v2 })
      hchainS hR.nodup_ids hlen hR.head_eq hR.tail_eq
  have hnd := hR.nodup_ids
  rw [List.nodup_append] at hnd
  obtain ⟨hndpre, hndcons, hdisj⟩ := hnd
  rw [List.nodup_cons] at hndcons
  have hi_not : i ∉ pre ++ post := by
    rw [List.mem_append]
    rintro (hip | hip)
    · exact hdisj hip (List.mem_cons_self i post)
    · exact hndcons.1 hip
  have hnd2 : (pre ++ post).Nodup :=
    ((List.sublist_cons_self i post).append_left pre).nodup hR.nodup_ids
  have rnode2 : (remove_node { c with mem := setData c.mem i v2 } (some i)).mem[i]? =
      some ⟨k, v2, linkOf post none, backLink pre none⟩ := by
    rw [rnode]
    exact chainSeg_middle_node hchainS hlen
  obtain ⟨pcap, pmap, plen, phead, ptail, pchain⟩ :=
    push_front_spec rchain rhead rtail hnd2 hi_not rnode2
  have hkeysPerm :
      ((kpre ++ (k, v) :: kpost).map Prod.fst).Perm
        (((k, v2) :: (kpre ++ kpost)).map Prod.fst) := by
    simp only [List.map_append, List.map_cons]
    exact List.perm_middle
  have hmemS : ({ c with mem := setData c.mem i v2 } : LruCache K V).mem.length
      = c.mem.length := length_setData c.mem i v2
  refine ⟨?_, by rw [pcap, rcap], by rw [pmap, rmap], by rw [plen, rlen, hmemS]⟩
  refine ⟨pchain, phead, ptail, List.nodup_cons.mpr ⟨hi_not, hnd2⟩,
    hkeysPerm.nodup hR.nodup_keys, ?_, ?_, ?_⟩
  · rw [pmap, rmap, hR.map_len]
    simp
    omega
  · rw [pmap, rmap]
    exact hR.map_nodup
  · intro a
    have e1 : findId (i :: (pre ++ post)) ((k, v2) :: (kpre ++ kpost)) a
        = findId (i :: (pre ++ post)) ((k, v) :: (kpre ++ kpost)) a :=
      findId_congr_keys (by simp) a
    rw [pmap, rmap, e1, findId_move_to_front hlen hknot a]
    exact hR.map_get a

/-- The allocation-and-insert tail of `put` on any represented state whose
index does not contain the key: the fresh node becomes the new head and the
key count grows by one. -/
theorem insert_fresh_spec {c : LruCache K V} {ids : List Nat} {kvs : List (K × V)}
    {k : K} (v : V) (hR : Rep c ids kvs) (hmiss : mapGet c.map k = none) :
    Rep (insertFresh c k v) (c.mem.length :: ids) ((k, v) :: kvs) ∧
    (insertFresh c k v).capacity = c.capacity ∧
    (insertFresh c k v).map.length = c.map.length + 1 ∧
    (insertFresh c k v).mem.length = c.mem.length + 1 := by
  have hknot : k ∉ kvs.map Prod.fst := hR.not_mem_keys_of_mapGet_none hmiss
  have hlt : ∀ j ∈ ids, j < c.mem.length := chainSeg_lt_length hR.chain
  have hfresh : c.mem.length ∉ ids := fun hin => lt_irrefl _ (hlt _ hin)
  have hchain2 : chainSeg (c.mem ++ [⟨k, v, none, none⟩]) none ids kvs none :=
    chainSeg_frame hR.chain fun j hj => by
      rw [List.getElem?_append, if_pos (hlt j hj)]
  have hnode2 : (c.mem ++ [(⟨k, v, none, none⟩ : Node K V)])[c.mem.length]? =
      some ⟨k, v, none, none⟩ :=
    List.getElem?_concat_length c.mem _
  obtain ⟨pcap, pmap, plen, phead, ptail, pchain⟩ :=
    push_front_spec (c := { c with mem := c.mem ++ [⟨k, v, none, none⟩] })
      hchain2 hR.head_eq hR.tail_eq hR.nodup_ids hfresh hnode2
  have hmaplen : (mapInsert c.map k (some c.mem.length)).length = c.map.length + 1 := by
    rw [mapInsert, List.length_cons, mapRemove_eq_self hmiss]
  refine ⟨?_, pcap, hmaplen, plen.trans (by simp)⟩
  refine ⟨pchain, phead, ptail, List.nodup_cons.mpr ⟨hfresh, hR.nodup_ids⟩,
    List.nodup_cons.mpr ⟨hknot, hR.nodup_keys⟩, ?_, ?_, ?_⟩
  · rw [show (insertFresh c k v).map = mapInsert c.map k (some c.mem.length) from rfl,
      hmaplen, hR.map_len, List.length_cons]
  · exact keys_mapInsert_nodup k (some c.mem.length) hR.map_nodup
  · intro a
    rw [show (insertFresh c k v).map = mapInsert c.map k (some c.mem.length) from rfl,
      mapGet_mapInsert, mapRemove_eq_self hmiss, findId_cons]
    by_cases hka : k = a
    · rw [if_pos hka, if_pos hka]
      rfl
    · rw [if_neg hka, if_neg hka, hR.map_get a]

/-- `put` of a non-resident key with spare capacity: no eviction, the key
count grows by one. -/
theorem put_spec_grow {c : LruCache K V} {ids : List Nat} {kvs : List (K × V)}
    {k : K} (v : V) (hR : Rep c ids kvs) (hmiss : mapGet c.map k = none)
    (hcap : c.map.length < c.capacity) :
    Rep (put c k v) (c.mem.length :: ids) ((k, v) :: kvs) ∧
    (put c k v).capacity = c.capacity ∧
    (put c k v).map.length = c.map.length + 1 := by
  rw [put_eq_grow v hmiss hcap]
  obtain ⟨h1, h2, h3, _⟩ := insert_fresh_spec v hR hmiss
  exact ⟨h1, h2, h3⟩

/-- `put` on an empty cache: the eviction branch finds no tail (even when
`capacity = 0` makes the length test succeed), so the key is just inserted. -/
theorem put_spec_empty {c : LruCache K V} {k : K} (v : V) (hR : Rep c ([] : List Nat) []) :
    Rep (put c k v) [c.mem.length] [(k, v)] ∧
    (put c k v).capacity = c.capacity ∧
    (put c k v).map.length = 1 := by
  have hmiss : mapGet c.map k = none := hR.mapGet_none_of_not_mem (by simp)
  have ht : c.tail = none := hR.tail_eq
  rw [put_eq_empty v hmiss ht]
  obtain ⟨h1, h2, h3, _⟩ := insert_fresh_spec v hR hmiss
  have hm0 : c.map.length = 0 := hR.map_len
  exact ⟨h1, h2, by rw [h3, hm0]⟩

/-- `put` of a non-resident key on a nonempty cache at (or beyond) capacity:
the tail — the least-recently-used entry — is evicted from the index and the
chain, then the new key is inserted at the front; the key count is unchanged. -/
theorem put_spec_evict {c : LruCache K V} {ids0 : List Nat} {kvs0 : List (K × V)}
    {t : Nat} {kt : K} {vt : V} {k : K} (v : V)
    (hR : Rep c (ids0 ++ [t]) (kvs0 ++ [(kt, vt)]))
    (hmiss : mapGet c.map k = none) (hcap : c.capacity ≤ c.map.length) :
    Rep (put c k v) (c.mem.length :: ids0) ((k, v) :: kvs0) ∧
    (put c k v).capacity = c.capacity ∧
    (put c k v).map.length = c.map.length := by
  have hlen0 : ids0.length = kvs0.length := by
    have h := hR.ids_length
    simp only [List.length_append, List.length_cons, List.length_nil] at h
    omega
  have ht : c.tail = some t := by rw [hR.tail_eq, List.getLast?_concat]
  have htn : c.mem[t]? = some ⟨kt, vt, linkOf [] none, backLink ids0 none⟩ :=
    chainSeg_middle_node hR.chain hlen0
  have hktnot : kt ∉ kvs0.map Prod.fst := by
    have hkeys := hR.nodup_keys
    simp only [List.map_append, List.map_cons, List.map_nil] at hkeys
    rw [List.nodup_append] at hkeys
    exact fun hmem => hkeys.2.2 hmem (by simp)
  have hktfind : findId (ids0 ++ [t]) (kvs0 ++ [(kt, vt)]) kt = some t :=
    findId_middle hlen0 hktnot
  have hktmap : mapGet c.map kt = some (some t) := by
    rw [hR.map_get kt, hktfind]
    rfl
  have hremlen : (mapRemove c.map kt).length + 1 = c.map.length :=
    length_mapRemove_keys_nodup hR.map_nodup (by rw [hktmap]; simp)
  rw [put_eq_evict v hmiss hcap ht htn]
  obtain ⟨rcap, rmap, rlen, rhead, rtail, rchain, rnode⟩ :=
    remove_node_spec (c := { c with map := mapRemove c.map kt })
      hR.chain hR.nodup_ids hlen0 hR.head_eq hR.tail_eq
  simp only [List.append_nil] at rhead rtail rchain
  have hclen : c.map.length = kvs0.length + 1 := by
    rw [hR.map_len]
    simp
  have hRR : Rep (remove_node { c with map := mapRemove c.map kt } (some t)) ids0 kvs0 := by
    refine ⟨rchain, rhead, rtail, (List.nodup_append.mp hR.nodup_ids).1, ?_, ?_, ?_, ?_⟩
    · have hkeys := hR.nodup_keys
      simp only [List.map_append] at hkeys
      exact (List.nodup_append.mp hkeys).1
    · rw [rmap]
      show (mapRemove c.map kt).length = kvs0.length
      omega
    · rw [rmap]
      exact keys_mapRemove_nodup kt hR.map_nodup
    · intro a
      rw [rmap]
      show mapGet (mapRemove c.map kt) a = (findId ids0 kvs0 a).map some
      rw [mapGet_mapRemove]
      by_cases hakt : a = kt
      · rw [if_pos hakt, hakt, findId_eq_none_of_not_mem hktnot ids0]
        rfl
      · rw [if_neg hakt, hR.map_get a, findId_append a hlen0, findId_cons,
          if_neg (fun hc => hakt hc.symm)]
        simp
  have hmissR : mapGet (remove_node { c with map := mapRemove c.map kt } (some t)).map k
      = none := by
    rw [rmap]
    show mapGet (mapRemove c.map kt) k = none
    rw [mapGet_mapRemove]
    by_cases hk : k = kt
    · rw [if_pos hk]
    · rw [if_neg hk]
      exact hmiss
  obtain ⟨f1, f2, f3, _⟩ := insert_fresh_spec v hRR hmissR
  have rlen2 : (remove_node { c with map := mapRemove c.map kt } (some t)).mem.length
      = c.mem.length := rlen
  rw [rlen2] at f1
  refine ⟨f1, f2.trans rcap, ?_⟩
  rw [f3, rmap]
  show (mapRemove c.map kt).length + 1 = c.map.length
  exact hremlen

/-- `get` always leaves a represented state, preserves the capacity and the
number of resident keys. -/
theorem Rep_get_total {c : LruCache K V} {ids : List Nat} {kvs : List (K × V)}
    (hR : Rep c ids kvs) (k : K) :
    ∃ ids2 kvs2, Rep (get c k).2 ids2 kvs2 ∧
      (get c k).2.capacity = c.capacity ∧ kvs2.length = kvs.length := by
  cases hfi : findId ids kvs k with
  | none =>
    have hmiss : mapGet c.map k = none := by
      rw [hR.map_get k, hfi]
      rfl
    rw [get_eq_miss hmiss]
    exact ⟨ids, kvs, hR, rfl, rfl⟩
  | some i =>
    obtain ⟨pre, post, kpre, v, kpost, rfl, rfl, hlen, hknot⟩ := findId_some_decomp hfi
    obtain ⟨_, hRep2, hcap2, _, _⟩ := get_spec_hit hR hlen hknot
    refine ⟨_, _, hRep2, hcap2, ?_⟩
    simp only [List.length_cons, List.length_append]
    omega

/-- `put` always leaves a represented state whose most-recently-used entry is
the pair just written, and preserves the capacity; the number of resident
keys stays, grows by one strictly below capacity, or becomes one (insertion
into the empty cache). -/
theorem Rep_put_total {c : LruCache K V} {ids : List Nat} {kvs : List (K × V)}
    (hR : Rep c ids kvs) (k : K) (v : V) :
    ∃ i ids2 kvs2, Rep (put c k v) (i :: ids2) ((k, v) :: kvs2) ∧
      (put c k v).capacity = c.capacity ∧
      (kvs2.length + 1 = kvs.length ∨
        (kvs2.length = kvs.length ∧ kvs.length < c.capacity) ∨
        kvs2.length = 0) := by
  cases hfi : findId ids kvs k with
  | some i =>
    obtain ⟨pre, post, kpre, v0, kpost, rfl, rfl, hlen, hknot⟩ := findId_some_decomp hfi
    obtain ⟨hRep2, hcap2, _, _⟩ := put_spec_hit v hR hlen hknot
    refine ⟨_, _, _, hRep2, hcap2, Or.inl ?_⟩
    simp only [List.length_append, List.length_cons]
    omega
  | none =>
    have hmiss : mapGet c.map k = none := by
      rw [hR.map_get k, hfi]
      rfl
    by_cases hcap : c.map.length < c.capacity
    · obtain ⟨hRep2, hcap2, _⟩ := put_spec_grow v hR hmiss hcap
      refine ⟨_, _, _, hRep2, hcap2, Or.inr (Or.inl ⟨rfl, ?_⟩)⟩
      rwa [hR.map_len] at hcap
    · have hcap2 : c.capacity ≤ c.map.length := Nat.not_lt.mp hcap
      rcases List.eq_nil_or_concat ids with rfl | ⟨ids0, t, hideq⟩
      · have hkvs : kvs = [] := chainSeg_nil_iff.mp hR.chain
        subst hkvs
        obtain ⟨hRep2, hc2, _⟩ := put_spec_empty v hR
        exact ⟨_, _, _, hRep2, hc2, Or.inr (Or.inr rfl)⟩
      · rw [List.concat_eq_append] at hideq
        subst hideq
        have hkne : kvs ≠ [] := by
          intro hk
          subst hk
          have h := hR.ids_length
          simp at h
        obtain ⟨kvs0, q, hkeq⟩ : ∃ kvs0 q, kvs = kvs0 ++ [q] :=
          ⟨kvs.dropLast, kvs.getLast hkne, (List.dropLast_append_getLast hkne).symm⟩
        obtain ⟨kt, vt⟩ := q
        subst hkeq
        obtain ⟨hRep2, hc2, _⟩ := put_spec_evict v hR hmiss hcap2
        refine ⟨_, _, _, hRep2, hc2, Or.inl ?_⟩
        simp

theorem run_cons (c : LruCache K V) (op : Op K V) (ops : List (Op K V)) :
    run c (op :: ops) = run (step c op) ops := rfl

/-- Every state reachable from a represented state is represented, with the
same capacity. -/
theorem Rep_run {c : LruCache K V} {ids : List Nat} {kvs : List (K × V)}
    (hR : Rep c ids kvs) (ops : List (Op K V)) :
    ∃ ids2 kvs2, Rep (run c ops) ids2 kvs2 ∧ (run c ops).capacity = c.capacity := by
  induction ops generalizing c ids kvs with
  | nil => exact ⟨ids, kvs, hR, rfl⟩
  | cons op ops ih =>
    rw [run_cons]
    cases op with
    | get k =>
      obtain ⟨ids2, kvs2, hR2, hcap2, _⟩ := Rep_get_total hR k
      obtain ⟨ids3, kvs3, hR3, hcap3⟩ := ih hR2
      exact ⟨ids3, kvs3, hR3, hcap3.trans hcap2⟩
    | put k v =>
      obtain ⟨i, ids2, kvs2, hR2, hcap2, _⟩ := Rep_put_total hR k v
      obtain ⟨ids3, kvs3, hR3, hcap3⟩ := ih hR2
      exact ⟨ids3, kvs3, hR3, hcap3.trans hcap2⟩

/-- Capacity invariant: from a represented state within a positive capacity,
every reachable state stays within the capacity. -/
theorem Rep_run_le {c : LruCache K V} {ids : List Nat} {kvs : List (K × V)}
    (hR : Rep c ids kvs) (hle : kvs.length ≤ c.capacity) (h1 : 1 ≤ c.capacity)
    (ops : List (Op K V)) :
    ∃ ids2 kvs2, Rep (run c ops) ids2 kvs2 ∧ kvs2.length ≤ c.capacity ∧
      (run c ops).capacity = c.capacity := by
  induction ops generalizing c ids kvs with
  | nil => exact ⟨ids, kvs, hR, hle, rfl⟩
  | cons op ops ih =>
    rw [run_cons]
    cases op with
    | get k =>
      obtain ⟨ids2, kvs2, hR2, hcap2, hlen2⟩ := Rep_get_total hR k
      have hle2 : kvs2.length ≤ (get c k).2.capacity := by
        rw [hlen2, hcap2]
        exact hle
      have h12 : 1 ≤ (get c k).2.capacity := by
        rw [hcap2]
        exact h1
      obtain ⟨ids3, kvs3, hR3, hle3, hcap3⟩ := ih hR2 hle2 h12
      exact ⟨ids3, kvs3, hR3, hcap2 ▸ hle3, hcap3.trans hcap2⟩
    | put k v =>
      obtain ⟨i, ids2, kvs2, hR2, hcap2, hdisj⟩ := Rep_put_total hR k v
      have hle2 : ((k, v) :: kvs2).length ≤ (put c k v).capacity := by
        rw [hcap2, List.length_cons]
        rcases hdisj with h | ⟨h, hlt⟩ | h
        · omega
        · omega
        · omega
      have h12 : 1 ≤ (put c k v).capacity := by
        rw [hcap2]
        exact h1
      obtain ⟨ids3, kvs3, hR3, hle3, hcap3⟩ := ih hR2 hle2 h12
      exact ⟨ids3, kvs3, hR3, hcap2 ▸ hle3, hcap3.trans hcap2⟩

/-- With capacity zero and exactly one resident key, every reachable state
still has exactly one resident key. -/
theorem Rep_run_one {c : LruCache K V} {ids : List Nat} {kvs : List (K × V)}
    (hR : Rep c ids kvs) (hone : kvs.length = 1) (hcap0 : c.capacity = 0)
    (ops : List (Op K V)) :
    ∃ ids2 kvs2, Rep (run c ops) ids2 kvs2 ∧ kvs2.length = 1 := by
  induction ops generalizing c ids kvs with
  | nil => exact ⟨ids, kvs, hR, hone⟩
  | cons op ops ih =>
    rw [run_cons]
    cases op with
    | get k =>
      obtain ⟨ids2, kvs2, hR2, hcap2, hlen2⟩ := Rep_get_total hR k
      exact ih hR2 (hlen2.trans hone) (hcap2.trans hcap0)
    | put k v =>
      obtain ⟨i, ids2, kvs2, hR2, hcap2, hdisj⟩ := Rep_put_total hR k v
      have hone2 : ((k, v) :: kvs2).length = 1 := by
        rw [List.length_cons]
        rcases hdisj with h | ⟨h, hlt⟩ | h
        · omega
        · rw [hcap0] at hlt
          omega
        · omega
      exact ih hR2 hone2 (hcap2.trans hcap0)

/-! ## Helpers for the claim statements -/

theorem headKey_of_Rep_cons {c : LruCache K V} {i : Nat} {ids : List Nat}
    {k : K} {v : V} {kvs : List (K × V)} (hR : Rep c (i :: ids) ((k, v) :: kvs)) :
    headKey c = some k := by
  have hh : c.head = some i := hR.head_eq
  have hc := hR.chain
  rw [chainSeg] at hc
  rw [headKey, hh]
  simp [hc.1]

theorem get_fst_of_Rep_cons {c : LruCache K V} {i : Nat} {ids : List Nat}
    {k : K} {v : V} {kvs : List (K × V)} (hR : Rep c (i :: ids) ((k, v) :: kvs)) :
    (get c k).1 = some v := by
  have hfind : findId (i :: ids) ((k, v) :: kvs) k = some i := by
    rw [findId_cons, if_pos rfl]
  have hmap : mapGet c.map k = some (some i) := by
    rw [hR.map_get k, hfind]
    rfl
  have hc := hR.chain
  rw [chainSeg] at hc
  rw [get_eq_hit hmap hc.1]

/-- A concrete one-entry state (key bound to node `0`) is represented. -/
theorem Rep_single (cap : Nat) (k : K) (v : V) :
    Rep (⟨cap, [(k, some 0)], some 0, some 0, [⟨k, v, none, none⟩]⟩ : LruCache K V)
      [0] [(k, v)] := by
  refine ⟨?_, rfl, rfl, by simp, by simp, rfl, by simp, ?_⟩
  · rw [chainSeg]
    exact ⟨rfl, trivial⟩
  · intro a
    by_cases h : k = a
    · rw [findId_cons, if_pos h]
      show (if k = a then some (some 0) else mapGet [] a) = some (some 0)
      rw [if_pos h]
    · rw [findId_cons, if_neg h]
      show (if k = a then some (some 0) else mapGet [] a) =
        (findId ([] : List Nat) ([] : List (K × V)) a).map some
      rw [if_neg h]
      rfl

/-- `put` on a resident key, packaged: the value is overwritten in place, the
entry moves to the front, the index map is completely unchanged, and `k` has
exactly one entry. -/
theorem put_overwrite_spec {c : LruCache K V} {ids : List Nat} {kvs : List (K × V)}
    {k : K} (v2 : V) (hR : Rep c ids kvs) (hres : mapGet c.map k ≠ none) :
    (get (put c k v2) k).1 = some v2 ∧
    headKey (put c k v2) = some k ∧
    (put c k v2).map = c.map ∧
    (put c k v2).map.length = c.map.length ∧
    ∃ i ids2 kvs2, Rep (put c k v2) (i :: ids2) ((k, v2) :: kvs2) ∧
      k ∉ kvs2.map Prod.fst := by
  cases hfi : findId ids kvs k with
  | none =>
    rw [hR.map_get k, hfi] at hres
    exact absurd rfl hres
  | some i =>
    obtain ⟨pre, post, kpre, v0, kpost, rfl, rfl, hlen, hknot⟩ := findId_some_decomp hfi
    obtain ⟨hRep2, hcap2, hmap2, hmem2⟩ := put_spec_hit v2 hR hlen hknot
    have hkout : k ∉ (kpre ++ kpost).map Prod.fst :=
      (List.nodup_cons.mp (by simpa using hRep2.nodup_keys)).1
    exact ⟨get_fst_of_Rep_cons hRep2, headKey_of_Rep_cons hRep2, hmap2,
      by rw [hmap2], _, _, _, hRep2, hkout⟩


/-- Replay of the unit test of the source (lib.rs lines 119–131): the
embedding returns exactly the values the Rust test asserts. -/
theorem rust_unit_test_replay :
    (get (put (put (new Nat Nat 2) 1 1) 2 2) 1).1 = some 1 ∧
    (get (put (get (put (put (new Nat Nat 2) 1 1) 2 2) 1).2 3 3) 2).1 = none ∧
    (get (put (get (put (get (put (put (new Nat Nat 2) 1 1) 2 2) 1).2 3 3) 2).2 4 4) 1).1
      = none ∧
    (get (put (get (put (get (put (put (new Nat Nat 2) 1 1) 2 2) 1).2 3 3) 2).2 4 4) 3).1
      = some 3 ∧
    (get (put (get (put (get (put (put (new Nat Nat 2) 1 1) 2 2) 1).2 3 3) 2).2 4 4) 4).1
      = some 4 := by
  decide

/-! ## The claims -/

/-- C1: for every represented cache with capacity at least 1, a `put` of a
non-resident key while the number of resident keys equals the capacity
evicts exactly the least-recently-used entry (the last of the recency list):
afterwards the state represents `(k, v)` followed by all previous entries
except the last, the key count still equals the capacity, the evicted key is
no longer in the index, and `k` is. -/
theorem claim_C1 {c : LruCache K V} {ids : List Nat} {kvs : List (K × V)} {k : K} (v : V)
    (hR : Rep c ids kvs) (hcap1 : 1 ≤ c.capacity)
    (hmiss : mapGet c.map k = none) (hfull : kvs.length = c.capacity) :
    (∃ ids2, Rep (put c k v) ids2 ((k, v) :: kvs.dropLast)) ∧
    (put c k v).map.length = c.capacity ∧
    (∀ p, kvs.getLast? = some p → mapGet (put c k v).map p.1 = none) ∧
    mapGet (put c k v).map k ≠ none := by
  have hkne : kvs ≠ [] := by
    intro h
    subst h
    simp at hfull
    omega
  have hine : ids ≠ [] := by
    intro h
    subst h
    have h0 := hR.ids_length
    rw [← h0] at hfull
    simp at hfull
    omega
  rcases List.eq_nil_or_concat ids with rfl | ⟨ids0, t, hideq⟩
  · exact absurd rfl hine
  rw [List.concat_eq_append] at hideq
  subst hideq
  obtain ⟨kvs0, q, hkeq⟩ : ∃ kvs0 q, kvs = kvs0 ++ [q] :=
    ⟨kvs.dropLast, kvs.getLast hkne, (List.dropLast_append_getLast hkne).symm⟩
  obtain ⟨kt, vt⟩ := q
  subst hkeq
  have hcaple : c.capacity ≤ c.map.length := by
    rw [hR.map_len, hfull]
  obtain ⟨hRep2, hcap2, hlen2⟩ := put_spec_evict v hR hmiss hcaple
  have hdrop : (kvs0 ++ [(kt, vt)]).dropLast = kvs0 := by simp
  have hlast : (kvs0 ++ [(kt, vt)]).getLast? = some (kt, vt) := List.getLast?_concat _
  refine ⟨⟨_, by rw [hdrop]; exact hRep2⟩, ?_, ?_, ?_⟩
  · rw [hlen2, hR.map_len, hfull]
  · intro p hp
    rw [hlast] at hp
    obtain rfl := Option.some_inj.mp hp
    apply hRep2.mapGet_none_of_not_mem
    have hknotold : k ∉ (kvs0 ++ [(kt, vt)]).map Prod.fst :=
      hR.not_mem_keys_of_mapGet_none hmiss
    have hktk : kt ≠ k := by
      intro h
      apply hknotold
      subst h
      exact List.mem_map_of_mem Prod.fst (List.mem_append_right kvs0 (List.mem_singleton.mpr rfl))
    have hktnot : kt ∉ kvs0.map Prod.fst := by
      have hkeys := hR.nodup_keys
      simp only [List.map_append, List.map_cons, List.map_nil] at hkeys
      rw [List.nodup_append] at hkeys
      exact fun hmem => hkeys.2.2 hmem (by simp)
    simp only [List.map_cons, List.mem_cons, not_or]
    exact ⟨hktk, hktnot⟩
  · rw [hRep2.map_get k, findId_cons, if_pos rfl]
    simp

theorem claim_C1_witness :
    (put (⟨1, [(1, some 0)], some 0, some 0,
        [⟨1, 10, none, none⟩]⟩ : LruCache Nat Nat) 2 20).map.length = 1 ∧
    mapGet (put (⟨1, [(1, some 0)], some 0, some 0,
        [⟨1, 10, none, none⟩]⟩ : LruCache Nat Nat) 2 20).map 1 = none := by
  obtain ⟨_, h2, h3, _⟩ := claim_C1 (k := 2) 20 (Rep_single 1 1 10) (by decide) (by decide) rfl
  exact ⟨h2, h3 (1, 10) rfl⟩

/-- C2: starting from a cache constructed with capacity at least 1, after
every sequence of operations the number of keys in the index is at most the
capacity. -/
theorem claim_C2 (cap : Nat) (hcap : 1 ≤ cap) (ops : List (Op K V)) :
    (run (new K V cap) ops).map.length ≤ cap := by
  obtain ⟨ids2, kvs2, hR2, hle2, _⟩ := Rep_run_le (Rep_new cap) (by simp) hcap ops
  rw [hR2.map_len]
  exact hle2

theorem claim_C2_witness :
    (run (new Nat Nat 2) [Op.put 1 1, Op.put 2 2, Op.put 3 3, Op.get 1]).map.length ≤ 2 :=
  claim_C2 2 (by decide) [Op.put 1 1, Op.put 2 2, Op.put 3 3, Op.get 1]

/-- C3: on every represented cache, `put (k, v)` immediately followed by
`get k` returns `v`. -/
theorem claim_C3 {c : LruCache K V} {ids : List Nat} {kvs : List (K × V)}
    (hR : Rep c ids kvs) (k : K) (v : V) :
    (get (put c k v) k).1 = some v := by
  obtain ⟨i, ids2, kvs2, hR2, _, _⟩ := Rep_put_total hR k v
  exact get_fst_of_Rep_cons hR2

theorem claim_C3_witness : (get (put (new Nat Nat 2) 5 7) 5).1 = some 7 :=
  claim_C3 (Rep_new 2) 5 7

/-- C4: after a `get k` that returns a value, and after any `put k v`, the
key `k` is the most-recently-used entry — the head of the recency list — and
the least-recently-used entry (the eviction candidate), when one other
exists, is not `k`. -/
theorem claim_C4 {c : LruCache K V} {ids : List Nat} {kvs : List (K × V)}
    (hR : Rep c ids kvs) :
    (∀ k v, (get c k).1 = some v →
      headKey (get c k).2 = some k ∧
      ∃ i ids2 kvs2, Rep (get c k).2 (i :: ids2) ((k, v) :: kvs2) ∧
        ∀ p, kvs2.getLast? = some p → p.1 ≠ k) ∧
    (∀ k v,
      headKey (put c k v) = some k ∧
      ∃ i ids2 kvs2, Rep (put c k v) (i :: ids2) ((k, v) :: kvs2) ∧
        ∀ p, kvs2.getLast? = some p → p.1 ≠ k) := by
  constructor
  · intro k v hget
    cases hfi : findId ids kvs k with
    | none =>
      have hmiss : mapGet c.map k = none := by
        rw [hR.map_get k, hfi]
        rfl
      rw [get_eq_miss hmiss] at hget
      simp at hget
    | some i =>
      obtain ⟨pre, post, kpre, v0, kpost, rfl, rfl, hlen, hknot⟩ := findId_some_decomp hfi
      obtain ⟨hv, hRep2, _, _, _⟩ := get_spec_hit hR hlen hknot
      have hveq : v0 = v := Option.some_inj.mp (hv.symm.trans hget)
      subst hveq
      refine ⟨headKey_of_Rep_cons hRep2, _, _, _, hRep2, ?_⟩
      intro p hp hpk
      have hkout : k ∉ (kpre ++ kpost).map Prod.fst :=
        (List.nodup_cons.mp (by simpa using hRep2.nodup_keys)).1
      exact hkout (hpk ▸ List.mem_map_of_mem Prod.fst (List.mem_of_mem_getLast? hp))
  · intro k v
    obtain ⟨i, ids2, kvs2, hRep2, _, _⟩ := Rep_put_total hR k v
    refine ⟨headKey_of_Rep_cons hRep2, _, _, _, hRep2, ?_⟩
    intro p hp hpk
    have hkout : k ∉ kvs2.map Prod.fst :=
      (List.nodup_cons.mp (by simpa using hRep2.nodup_keys)).1
    exact hkout (hpk ▸ List.mem_map_of_mem Prod.fst (List.mem_of_mem_getLast? hp))

theorem claim_C4_witness :
    headKey (put (⟨2, [(1, some 0)], some 0, some 0,
      [⟨1, 10, none, none⟩]⟩ : LruCache Nat Nat) 3 30) = some 3 :=
  ((claim_C4 (Rep_single 2 1 10)).2 3 30).1

/-- C5: `get` on a key absent from the index returns `none` and leaves the
entire cache state exactly as it was. -/
theorem claim_C5 {c : LruCache K V} {k : K} (hmiss : mapGet c.map k = none) :
    get c k = (none, c) :=
  get_eq_miss hmiss

theorem claim_C5_witness : get (new Nat Nat 2) 4 = (none, new Nat Nat 2) :=
  claim_C5 rfl

/-- C6: `put` on a resident key overwrites the stored value (a subsequent
`get` returns the new value), moves the entry to the front, leaves the index
map completely unchanged (no growth, no eviction), and leaves exactly one
entry for the key; in particular two consecutive `put`s of the same key
leave one entry holding the second value. -/
theorem claim_C6 {c : LruCache K V} {ids : List Nat} {kvs : List (K × V)}
    (hR : Rep c ids kvs) (k : K) :
    (∀ v2, mapGet c.map k ≠ none →
      (get (put c k v2) k).1 = some v2 ∧
      headKey (put c k v2) = some k ∧
      (put c k v2).map = c.map ∧
      (put c k v2).map.length = c.map.length ∧
      ∃ i ids2 kvs2, Rep (put c k v2) (i :: ids2) ((k, v2) :: kvs2) ∧
        k ∉ kvs2.map Prod.fst) ∧
    (∀ v1 v2,
      (get (put (put c k v1) k v2) k).1 = some v2 ∧
      (put (put c k v1) k v2).map = (put c k v1).map ∧
      ∃ i ids2 kvs2, Rep (put (put c k v1) k v2) (i :: ids2) ((k, v2) :: kvs2) ∧
        k ∉ kvs2.map Prod.fst) := by
  constructor
  · intro v2 hres
    exact put_overwrite_spec v2 hR hres
  · intro v1 v2
    obtain ⟨i, ids2, kvs2, hR1, _, _⟩ := Rep_put_total hR k v1
    have hres1 : mapGet (put c k v1).map k ≠ none := by
      rw [hR1.map_get k, findId_cons, if_pos rfl]
      simp
    obtain ⟨h1, h2, h3, h4, h5⟩ := put_overwrite_spec v2 hR1 hres1
    exact ⟨h1, h3, h5⟩

theorem claim_C6_witness :
    (get (put (⟨2, [(1, some 0)], some 0, some 0,
      [⟨1, 10, none, none⟩]⟩ : LruCache Nat Nat) 1 99) 1).1 = some 99 :=
  ((claim_C6 (Rep_single 2 1 10) 1).1 99 (by decide)).1

/-- C7: every state reachable from a freshly constructed cache by `get` and
`put` operations satisfies the structural invariant `Rep`: the index map
binds exactly the keys on the recency chain, one non-empty link per key,
each to the node carrying that key; the nodes form a single acyclic
doubly-linked chain, the first node having no predecessor and the last no
successor, with `head` and `tail` pointing at its two ends. -/
theorem claim_C7 (cap : Nat) (ops : List (Op K V)) :
    ∃ ids kvs, Rep (run (new K V cap) ops) ids kvs := by
  obtain ⟨ids, kvs, hR, _⟩ := Rep_run (Rep_new cap) ops
  exact ⟨ids, kvs, hR⟩

/-- C8 (amended): construction performs no validation whatsoever —
`new capacity` succeeds for every capacity, zero included, and returns the
well-formed empty cache with that capacity. -/
theorem claim_C8 (cap : Nat) :
    (new K V cap).capacity = cap ∧ (new K V cap).map = [] ∧ Rep (new K V cap) [] [] :=
  ⟨rfl, rfl, Rep_new cap⟩

/-- C8, counterexample to the claim as stated: constructing with capacity 0
is not rejected — the cache is built (its capacity field is 0) and its first
use succeeds, inserting a key. -/
theorem claim_C8_counterexample :
    (new Nat Nat 0).capacity = 0 ∧ ((new Nat Nat 0).put 1 1).map.length = 1 :=
  ⟨rfl, rfl⟩

/-- C10: with capacity 0, the first `put` does not fail and leaves one
resident key (exceeding the capacity), the count stays exactly 1 under all
further operations, and every `put` of a non-resident key on such a
one-entry state evicts the single resident entry and inserts the new key. -/
theorem claim_C10 (k : K) (v : V) :
    (new K V 0).capacity = 0 ∧
    ((new K V 0).put k v).map.length = 1 ∧
    (∀ ops, (run ((new K V 0).put k v) ops).map.length = 1) ∧
    (∀ (c : LruCache K V) (ids : List Nat) (kvs : List (K × V)) (k2 : K) (v2 : V),
      Rep c ids kvs → c.capacity = 0 → kvs.length = 1 → mapGet c.map k2 = none →
      (put c k2 v2).map.length = 1 ∧
      mapGet (put c k2 v2).map k2 ≠ none ∧
      (∀ p, kvs.getLast? = some p → mapGet (put c k2 v2).map p.1 = none)) := by
  obtain ⟨hRep1, hcap1, hlen1⟩ := put_spec_empty (c := new K V 0) (k := k) v (Rep_new 0)
  refine ⟨rfl, hlen1, ?_, ?_⟩
  · intro ops
    obtain ⟨ids2, kvs2, hR2, hone2⟩ := Rep_run_one hRep1 rfl (hcap1.trans rfl) ops
    rw [hR2.map_len, hone2]
  · intro c ids kvs k2 v2 hRc hcap0 hone hmiss2
    have hlenids : ids.length = 1 := by rw [hRc.ids_length, hone]
    obtain ⟨t, rfl⟩ := List.length_eq_one.mp hlenids
    obtain ⟨q, rfl⟩ := List.length_eq_one.mp hone
    obtain ⟨kt, vt⟩ := q
    have hRc2 : Rep c ([] ++ [t]) ([] ++ [(kt, vt)]) := by simpa using hRc
    have hcaple : c.capacity ≤ c.map.length := by
      rw [hcap0]
      exact Nat.zero_le _
    obtain ⟨hRep2, hcap2, hlen2⟩ := put_spec_evict v2 hRc2 hmiss2 hcaple
    refine ⟨?_, ?_, ?_⟩
    · rw [hlen2, hRc.map_len]
      rfl
    · rw [hRep2.map_get k2, findId_cons, if_pos rfl]
      simp
    · intro p hp
      simp only [List.getLast?_singleton] at hp
      obtain rfl := Option.some_inj.mp hp
      apply hRep2.mapGet_none_of_not_mem
      have hktk2 : kt ≠ k2 := by
        intro h
        apply hRc.not_mem_keys_of_mapGet_none hmiss2
        subst h
        simp
      simp [hktk2]

theorem claim_C10_witness :
    ((new Nat Nat 0).put 5 7).map.length = 1 ∧
    (run ((new Nat Nat 0).put 5 7) [Op.put 6 8, Op.get 6]).map.length = 1 ∧
    mapGet (put (⟨0, [(5, some 0)], some 0, some 0,
      [⟨5, 7, none, none⟩]⟩ : LruCache Nat Nat) 6 8).map 5 = none := by
  obtain ⟨_, h2, h3, h4⟩ := claim_C10 (K := Nat) (V := Nat) 5 7
  obtain ⟨_, _, h43⟩ := h4 _ [0] [(5, 7)] 6 8 (Rep_single 0 5 7) rfl rfl (by decide)
  exact ⟨h2, h3 [Op.put 6 8, Op.get 6], h43 (5, 7) rfl⟩

end LruModel






